import Mathlib

/-!
Verification of the Dynatrace OpenTelemetry metrics exporter (Python).

Shallow embedding of the normalization/serialization engine
(serializer.py), the metric classifier (_factory.py), the histogram
min/max estimator (_histogram_utils.py) and the chunked delivery loop
(_exporter.py).  Strings are modelled as List Char; Python dicts as
insertion-ordered association lists; numeric metric values as rationals
(the algorithms only divide, compare and take min/max, which the
rationals mirror faithfully).
-/

namespace DynatraceMetrics

/-! ## Character classes of the regular expressions in serializer.py -/

/-- Characters allowed in a metric key section, regex class [a-zA-Z0-9_-]
(the complement drives __re_mk_invalid_characters and
__re_mk_identifier_section_end). -/
def isMkValidChar (c : Char) : Bool :=
  (('a' ≤ c && c ≤ 'z') || ('A' ≤ c && c ≤ 'Z')) || ('0' ≤ c && c ≤ '9')
    || c = '_' || c = '-'

/-- Characters allowed to start a non-first metric key section, regex class
[a-zA-Z0-9_] (complement is __re_mk_identifier_section_start). -/
def isMkSectionStartChar (c : Char) : Bool :=
  (('a' ≤ c && c ≤ 'z') || ('A' ≤ c && c ≤ 'Z')) || ('0' ≤ c && c ≤ '9')
    || c = '_'

/-- Characters allowed to start the first metric key section, regex class
[a-zA-Z_] (complement is __re_mk_first_identifier_section_start). -/
def isMkFirstStartChar (c : Char) : Bool :=
  (('a' ≤ c && c ≤ 'z') || ('A' ≤ c && c ≤ 'Z')) || c = '_'

/-- Characters allowed in a dimension key section, regex class [a-z0-9_\-:]
(complement drives __re_dk_invalid_chars and __re_dk_end). -/
def isDkValidChar (c : Char) : Bool :=
  ('a' ≤ c && c ≤ 'z') || ('0' ≤ c && c ≤ '9') || c = '_' || c = '-'
    || c = ':'

/-- Characters allowed to start a dimension key section, regex class [a-z_]
(complement is __re_dk_start). -/
def isDkStartChar (c : Char) : Bool :=
  ('a' ≤ c && c ≤ 'z') || c = '_'

/-- The four reserved dimension-value characters of __re_dv_escape_chars,
regex class [= ,\\]. -/
def isReservedValueChar (c : Char) : Bool :=
  c = '=' || c = ' ' || c = ',' || c = '\\'

/-- Model of the control-character test unicodedata.category(c)[0] == "C"
used by _remove_control_characters.  Modelled by the Cc category
(C0 and C1 control blocks), the only category-C characters the
repository's tests exercise; every theorem below that quantifies over
strings is insensitive to the exact extent of this set. -/
def isControlChar (c : Char) : Bool :=
  c.val < 0x20 || (0x7f ≤ c.val && c.val ≤ 0x9f)

/-! ## Generic helpers shared by the regex translations -/

/-- Deletion of a trailing run of characters satisfying p, the effect of
re.sub of a pattern anchored with a plus and a dollar sign. -/
def dropTrailing (p : Char → Bool) (s : List Char) : List Char :=
  (s.reverse.dropWhile p).reverse

/-- Replacement of every maximal run of characters that are not valid by a
single underscore, the effect of re.sub of a negated character class with
a plus quantifier.  The boolean argument records whether the previous
character was part of an invalid run. -/
def condenseRuns (valid : Char → Bool) : Bool → List Char → List Char
  | _, [] => []
  | inRun, c :: rest =>
    if valid c then c :: condenseRuns valid false rest
    else if inRun then condenseRuns valid true rest
    else '_' :: condenseRuns valid true rest

/-! ## Metric key normalization (serializer.py lines 197-229) -/

/-- Embedding of DynatraceMetricsSerializer.__normalize_metric_key_section:
strip leading characters invalid at a section start, strip trailing
invalid characters, then condense internal invalid runs to one
underscore. -/
def normalize_metric_key_section (s : List Char) : List Char :=
  condenseRuns isMkValidChar false
    (dropTrailing (fun c => !isMkValidChar c)
      (s.dropWhile (fun c => !isMkSectionStartChar c)))

/-- Embedding of
DynatraceMetricsSerializer.__normalize_metric_key_first_section: first
delete characters invalid at the very start of the key, then normalize as
an ordinary section. -/
def normalize_metric_key_first_section (s : List Char) : List Char :=
  normalize_metric_key_section (s.dropWhile (fun c => !isMkFirstStartChar c))

/-- Embedding of DynatraceMetricsSerializer._normalize_metric_key: split on
dots, normalize the first section with the stricter start rule, return
empty if it vanishes, drop empty later sections, rejoin with dots.
Note: the source applies no truncation; __mk_max_length is declared but
never used. -/
def normalize_metric_key (key : List Char) : List Char :=
  match key.splitOn '.' with
  | [] => []
  | first :: rest =>
    let f := normalize_metric_key_first_section first
    if f = [] then []
    else List.intercalate ['.']
      (f :: (rest.map normalize_metric_key_section).filter (fun s => s ≠ []))

/-! ## Dimension key normalization (serializer.py lines 231-257) -/

/-- Embedding of
DynatraceMetricsSerializer.__normalize_dimension_key_section: lowercase
(the source uses Python str.lower; the ASCII Char.toLower suffices because
every non-ASCII character is invalid in the subsequent steps anyway),
strip leading invalid start characters, strip trailing invalid characters,
condense internal invalid runs to one underscore. -/
def normalize_dimension_key_section (s : List Char) : List Char :=
  condenseRuns isDkValidChar false
    (dropTrailing (fun c => !isDkValidChar c)
      ((s.map Char.toLower).dropWhile (fun c => !isDkStartChar c)))

/-- Embedding of DynatraceMetricsSerializer._normalize_dimension_key:
truncate to __dk_max_length = 100 characters, split on dots, normalize
each section, drop empty sections, rejoin with dots. -/
def normalize_dimension_key (key : List Char) : List Char :=
  List.intercalate ['.']
    ((((key.take 100).splitOn '.').map normalize_dimension_key_section).filter
      (fun s => s ≠ []))

/-! ## Dimension value normalization (serializer.py lines 315-335) -/

/-- The sentinel written over control characters, Python character
u0000. -/
def nullChar : Char := Char.ofNat 0

/-- Embedding of DynatraceMetricsSerializer._remove_control_characters:
replace every control character by the null sentinel, delete the leading
and the trailing run of sentinels, replace each internal run by one
underscore. -/
def remove_control_characters (s : List Char) : List Char :=
  condenseRuns (fun c => !(c = nullChar)) false
    (dropTrailing (fun c => c = nullChar)
      ((s.map (fun c => if isControlChar c then nullChar else c)).dropWhile
        (fun c => c = nullChar)))

/-- Embedding of the substitution of __re_dv_escape_chars: prefix each of
the four reserved characters with a backslash. -/
def escape_reserved : List Char → List Char
  | [] => []
  | c :: rest =>
    if isReservedValueChar c then '\\' :: c :: escape_reserved rest
    else c :: escape_reserved rest

/-- Embedding of DynatraceMetricsSerializer._normalize_dimension_value:
truncate to __dv_max_length = 250 characters, strip control characters,
escape the reserved characters. -/
def normalize_dimension_value (value : List Char) : List Char :=
  escape_reserved (remove_control_characters (value.take 250))

/-- Inverse of the reserved-character escaping as worded by the spec:
drop each escape backslash standing before one of the four reserved
characters. -/
def unescape_reserved : List Char → List Char
  | [] => []
  | [c] => [c]
  | c :: d :: rest =>
    if c = '\\' && isReservedValueChar d then d :: unescape_reserved rest
    else c :: unescape_reserved (d :: rest)

/-- Wellformedness of an escaped value: every backslash opens an escape
pair for a reserved character, and reserved characters appear only inside
such pairs; in particular no dangling escape backslash ends the
string. -/
def properlyEscaped : List Char → Bool
  | [] => true
  | [c] => !(c = '\\') && !isReservedValueChar c
  | c :: d :: rest =>
    if c = '\\' then isReservedValueChar d && properlyEscaped rest
    else !isReservedValueChar c && properlyEscaped (d :: rest)

/-! ## Dimension merging (serializer.py lines 78-89 and 337-354) -/

/-- Insertion-ordered association list standing for a Python dict over
string keys: assignment overwrites in place, a new key appends. -/
def dictSet (m : List (List Char × List Char)) (k v : List Char) :
    List (List Char × List Char) :=
  if (m.find? (fun p => p.1 == k)).isSome then
    m.map (fun p => if p.1 == k then (k, v) else p)
  else m ++ [(k, v)]

/-- Lookup in the association list model of a Python dict. -/
def dictGet (m : List (List Char × List Char)) (k : List Char) :
    Option (List Char) :=
  (m.find? (fun p => p.1 == k)).map (fun p => p.2)

/-- Embedding of DynatraceMetricsSerializer._normalize_tags: normalize the
static tags once at construction time, dropping entries whose key
normalizes to empty. -/
def normalize_tags (tags : List (List Char × List Char)) :
    List (List Char × List Char) :=
  tags.foldl (fun acc kv =>
    let key := normalize_dimension_key kv.1
    if key ≠ [] then dictSet acc key (normalize_dimension_value kv.2)
    else acc) []

/-- Embedding of DynatraceMetricsSerializer._make_unique_dimensions: the
per-point labels are normalized and inserted first, then the
pre-normalized tags (static defaults merged with enrichment metadata)
overwrite them on key collision. -/
def make_unique_dimensions (labels tags : List (List Char × List Char)) :
    List (List Char × List Char) :=
  let dims := labels.foldl (fun acc kv =>
    let key := normalize_dimension_key kv.1
    if key ≠ [] then dictSet acc key (normalize_dimension_value kv.2)
    else acc) []
  tags.foldl (fun acc kv => dictSet acc kv.1 kv.2) dims

/-! ## Data model of the classifier (_factory.py) and the estimator
(_histogram_utils.py).  Numeric values are rationals; a histogram min or
max that is absent or non-finite is modelled as none. -/

inductive AggregationTemporality
  | delta
  | cumulative
deriving DecidableEq

inductive PointValue
  | intValue (i : ℤ)
  | floatValue (q : ℚ)
deriving DecidableEq

structure NumberDataPoint where
  attributes : List (List Char × List Char)
  time_unix_nano : ℕ
  value : PointValue

structure HistogramDataPoint where
  attributes : List (List Char × List Char)
  time_unix_nano : ℕ
  bucket_counts : List ℕ
  explicit_bounds : List ℚ
  hsum : ℚ
  count : ℕ
  hmin : Option ℚ
  hmax : Option ℚ

/-! ## Histogram min/max estimation (_histogram_utils.py lines 22-94) -/

/-- The reverse index loop of _get_histogram_max, iterating over the given
index order; reaching the end of the list is the fall-through return of
the raw sum. -/
def scanBucketsMax (h : HistogramDataPoint) : List ℕ → ℚ
  | [] => h.hsum
  | i :: rest =>
    if 0 < h.bucket_counts.getD i 0 then
      if i = h.bucket_counts.length - 1 then
        max (h.explicit_bounds.getD (i - 1) 0) (h.hsum / (h.count : ℚ))
      else h.explicit_bounds.getD i 0
    else scanBucketsMax h rest

/-- Embedding of _get_histogram_max. -/
def get_histogram_max (h : HistogramDataPoint) : ℚ :=
  match h.hmax with
  | some m => m
  | none =>
    if h.bucket_counts.length = 1 then
      if 0 < h.bucket_counts.getD 0 0 then h.hsum / (h.count : ℚ) else h.hsum
    else scanBucketsMax h (List.range h.bucket_counts.length).reverse

/-- The forward index loop of _get_histogram_min. -/
def scanBucketsMin (h : HistogramDataPoint) : List ℕ → ℚ
  | [] => h.hsum
  | i :: rest =>
    if 0 < h.bucket_counts.getD i 0 then
      if i = 0 then
        min (h.explicit_bounds.getD 0 0) (h.hsum / (h.count : ℚ))
      else h.explicit_bounds.getD (i - 1) 0
    else scanBucketsMin h rest

/-- Embedding of _get_histogram_min. -/
def get_histogram_min (h : HistogramDataPoint) : ℚ :=
  match h.hmin with
  | some m => m
  | none =>
    if h.bucket_counts.length = 1 then
      if 0 < h.bucket_counts.getD 0 0 then h.hsum / (h.count : ℚ) else h.hsum
    else scanBucketsMin h (List.range h.bucket_counts.length)

/-- Modelled from the spec (section 4.5, algorithm for max), for the case
where the histogram's own max is unusable: one bucket gives the mean or
the raw sum; otherwise the first non-zero bucket scanning from the last
gives the greater of the last explicit bound and the mean when it is the
last bucket, and its upper explicit bound otherwise; all-zero counts give
the raw sum. -/
def specEstimateMax (h : HistogramDataPoint) : ℚ :=
  if h.bucket_counts.length = 1 then
    if h.bucket_counts.getD 0 0 ≠ 0 then h.hsum / (h.count : ℚ) else h.hsum
  else
    match (List.range h.bucket_counts.length).reverse.find?
        (fun i => decide (0 < h.bucket_counts.getD i 0)) with
    | none => h.hsum
    | some i =>
      if i = h.bucket_counts.length - 1 then
        max (h.explicit_bounds.getLast?.getD 0) (h.hsum / (h.count : ℚ))
      else h.explicit_bounds.getD i 0

/-- Modelled from the spec (section 4.5, algorithm for min), the mirror of
the max algorithm: the first bucket yields the lesser of the first
explicit bound and the mean; any other bucket its lower explicit
bound. -/
def specEstimateMin (h : HistogramDataPoint) : ℚ :=
  if h.bucket_counts.length = 1 then
    if h.bucket_counts.getD 0 0 ≠ 0 then h.hsum / (h.count : ℚ) else h.hsum
  else
    match (List.range h.bucket_counts.length).find?
        (fun i => decide (0 < h.bucket_counts.getD i 0)) with
    | none => h.hsum
    | some i =>
      if i = 0 then
        min (h.explicit_bounds.head?.getD 0) (h.hsum / (h.count : ℚ))
      else h.explicit_bounds.getD (i - 1) 0

/-! ## Metric classification (_factory.py lines 53-139) -/

inductive DynatraceMetricValue
  | counterDelta (v : PointValue)
  | gaugeValue (v : PointValue)
  | summary (minEst maxEst sumVal : ℚ) (totalCount : ℕ)
deriving DecidableEq

structure DynatraceMetric where
  name : List Char
  dimensions : List (List Char × List Char)
  value : DynatraceMetricValue
  timestamp : ℕ

/-- A metric datum together with one of its points, as dispatched by the
isinstance chain of _OTelDynatraceMetricsFactory.create_metric; the
constructor records the class of metric.data, whose points always have
the matching point type in the SDK. -/
inductive MetricPoint
  | sumPoint (is_monotonic : Bool) (temporality : AggregationTemporality)
      (p : NumberDataPoint)
  | gaugePoint (p : NumberDataPoint)
  | histPoint (temporality : AggregationTemporality) (p : HistogramDataPoint)
  | unsupportedPoint

/-- Embedding of _OTelDynatraceMetricsFactory.create_metric together with
its helpers _sum_to_dynatrace_metric, _to_dynatrace_counter,
_to_dynatrace_gauge and _histogram_to_dynatrace_metric.  A rejected point
(temporality mismatch or unsupported shape) yields none: the source logs
a warning and returns None, raising nothing. -/
def create_metric (name : List Char) : MetricPoint → Option DynatraceMetric
  | .sumPoint mono temp p =>
    if mono then
      if temp ≠ .delta then none
      else some ⟨name, p.attributes, .counterDelta p.value,
        p.time_unix_nano / 1000000⟩
    else
      if temp ≠ .cumulative then none
      else some ⟨name, p.attributes, .gaugeValue p.value,
        p.time_unix_nano / 1000000⟩
  | .gaugePoint p =>
    some ⟨name, p.attributes, .gaugeValue p.value, p.time_unix_nano / 1000000⟩
  | .histPoint temp p =>
    if temp ≠ .delta then none
    else some ⟨name, p.attributes,
      .summary (get_histogram_min p) (get_histogram_max p) p.hsum
        p.bucket_counts.sum,
      p.time_unix_nano / 1000000⟩
  | .unsupportedPoint => none

/-- Count field of a created summary metric, if any. -/
def summaryCount : Option DynatraceMetric → Option ℕ
  | some m =>
    match m.value with
    | .summary _ _ _ n => some n
    | _ => none
  | none => none

/-! ## Record serialization (serializer.py lines 91-184 and 296-313).
Aggregator checkpoints are modelled as integers (the rendering of
floating-point checkpoints is irrelevant to every claim below). -/

inductive Aggregator
  | sumAgg (checkpoint : ℤ) (ts : ℕ)
  | minMaxSumCountAgg (minV maxV sumV : ℤ) (countV : ℕ) (ts : ℕ)
  | valueObserverAgg (minV maxV sumV : ℤ) (countV : ℕ) (ts : ℕ)
  | lastValueAgg (checkpoint : ℤ) (ts : ℕ)
  | histogramAgg

/-- Field last_update_timestamp of an aggregator (nanoseconds). -/
def aggTimestamp : Aggregator → ℕ
  | .sumAgg _ ts => ts
  | .minMaxSumCountAgg _ _ _ _ ts => ts
  | .valueObserverAgg _ _ _ _ ts => ts
  | .lastValueAgg _ ts => ts
  | .histogramAgg => 0

/-- Decimal rendering of an integer, the effect of Python str. -/
def renderInt (i : ℤ) : List Char := (toString i).toList

/-- Decimal rendering of a natural number. -/
def renderNat (n : ℕ) : List Char := (toString n).toList

/-- Embedding of _get_serialize_func combined with the _write_count and
_write_gauge helpers: the classification of an aggregator into its value
clause, or none for the unsupported HistogramAggregator. -/
def serialize_value_clause (is_delta : Bool) :
    Aggregator → Option (List Char)
  | .sumAgg cp _ =>
    if is_delta then some (" count,delta=".toList ++ renderInt cp)
    else some (" count,".toList ++ renderInt cp)
  | .minMaxSumCountAgg mn mx sm ct _ =>
    some (" gauge,min=".toList ++ renderInt mn ++ ",max=".toList
      ++ renderInt mx ++ ",sum=".toList ++ renderInt sm
      ++ ",count=".toList ++ renderNat ct)
  | .valueObserverAgg mn mx sm ct _ =>
    some (" gauge,min=".toList ++ renderInt mn ++ ",max=".toList
      ++ renderInt mx ++ ",sum=".toList ++ renderInt sm
      ++ ",count=".toList ++ renderNat ct)
  | .lastValueAgg cp _ => some (" count,".toList ++ renderInt cp)
  | .histogramAgg => none

structure MetricRecord where
  instrument_name : List Char
  labels : List (List Char × List Char)
  aggregator : Aggregator

/-- Embedding of _get_metric_key: prepend the prefix (when non-empty)
with a dot, then normalize; an empty prefix is falsy in the source. -/
def get_metric_key (pfx : List Char) (name : List Char) : List Char :=
  normalize_metric_key (if pfx = [] then name else pfx ++ '.' :: name)

/-- Embedding of _write_dimensions: a comma, the key, an equals sign and
the value for every dimension. -/
def write_dimensions (dims : List (List Char × List Char)) : List Char :=
  dims.foldl (fun acc kv => acc ++ ',' :: kv.1 ++ '=' :: kv.2) []

/-- Embedding of _write_record: nothing is appended when the aggregator is
unsupported or when the metric key normalizes to empty; otherwise the
key, the merged dimensions, the value clause, the millisecond timestamp
and a newline are appended.  The shared string-buffer of the source is
modelled by the appended-to character list. -/
def write_record (is_delta : Bool) (pfx : List Char)
    (tags : List (List Char × List Char)) (buf : List Char)
    (r : MetricRecord) : List Char :=
  match serialize_value_clause is_delta r.aggregator with
  | none => buf
  | some clause =>
    let mk := get_metric_key pfx r.instrument_name
    if mk = [] then buf
    else
      buf ++ mk ++ write_dimensions (make_unique_dimensions r.labels tags)
        ++ clause ++ ' ' :: renderNat (aggTimestamp r.aggregator / 1000000)
        ++ ['\n']

/-- Embedding of serialize_records: fold _write_record over the batch and
join the buffer. -/
def serialize_records (is_delta : Bool) (pfx : List Char)
    (tags : List (List Char × List Char)) (records : List MetricRecord) :
    List Char :=
  records.foldl (write_record is_delta pfx tags) []

/-! ## Chunked delivery (_exporter.py lines 100-168).  The HTTP transport
is a function from the posted payload to a boolean: true models a 2xx
response, false models the raise of a non-2xx status or of a transport
error. -/

/-- Fuel-indexed chunk splitting; the fuel equals the list length at the
top call, which suffices for every positive chunk size. -/
def chunksOfAux (cs : ℕ) : ℕ → List (List Char) → List (List (List Char))
  | 0, _ => []
  | _ + 1, [] => []
  | fuel + 1, x :: xs =>
    (x :: xs).take cs :: chunksOfAux cs fuel ((x :: xs).drop cs)

/-- Embedding of the slicing loop of _send_lines: consecutive chunks of at
most the chunk size many lines. -/
def chunksOf (cs : ℕ) (lines : List (List Char)) :
    List (List (List Char)) :=
  chunksOfAux cs lines.length lines

/-- Payload of one chunk: the lines joined with newline separators. -/
def joinLines (chunk : List (List Char)) : List Char :=
  List.intercalate ['\n'] chunk

/-- The posting loop of _send_lines: one POST per chunk in order; the
first failing POST raises, which ends the loop.  Returns the trace of
posted payloads and whether every POST succeeded. -/
def send_chunks (post : List Char → Bool) :
    List (List (List Char)) → List (List Char) × Bool
  | [] => ([], true)
  | c :: rest =>
    let payload := joinLines c
    if post payload then
      let r := send_chunks post rest
      (payload :: r.1, r.2)
    else ([payload], false)

/-- Embedding of _DynatraceMetricsExporter._send_lines. -/
def send_lines (post : List Char → Bool) (cs : ℕ)
    (lines : List (List Char)) : List (List Char) × Bool :=
  send_chunks post (chunksOf cs lines)

inductive MetricExportResult
  | success
  | failure
deriving DecidableEq

/-- Embedding of the delivery part of _DynatraceMetricsExporter.export:
the call reports FAILURE exactly when _send_lines raises, which the model
renders as the boolean of send_lines. -/
def export_result (post : List Char → Bool) (cs : ℕ)
    (lines : List (List Char)) : MetricExportResult :=
  if (send_lines post cs lines).2 then .success else .failure

end DynatraceMetrics

namespace DynatraceMetrics

example : normalize_metric_key "just.a.normal.key".toList = "just.a.normal.key".toList := by decide
example : normalize_metric_key "1case".toList = "case".toList := by decide
example : normalize_metric_key "a..b".toList = "a.b".toList := by decide
example : normalize_metric_key ".".toList = [] := by decide
example : normalize_metric_key "._._._a_._._.".toList = [] := by decide
example : normalize_metric_key "_._._.a_._".toList = "_._._.a_._".toList := by decide
example : normalize_metric_key "some#~äkey".toList = "some_key".toList := by decide
example : normalize_metric_key "a.b$%@.c".toList = "a.b.c".toList := by decide
example : normalize_metric_key "meträääääÖÖÖc".toList = "metr_c".toList := by decide

example : normalize_dimension_key "Dim".toList = "dim".toList := by decide
example : normalize_dimension_key "dim.val:count.val001".toList = "dim.val:count.val001".toList := by decide
example : normalize_dimension_key "a,,,b  c=d\\e\\ =,f".toList = "a_b_c_d_e_f".toList := by decide
example : normalize_dimension_key "dim.~~~".toList = "dim".toList := by decide
example : normalize_dimension_key ".a.".toList = "a".toList := by decide

example : normalize_dimension_value " ,=\\".toList = "\\ \\,\\=\\\\".toList := by decide
example : normalize_dimension_value "a\x00b".toList = "a_b".toList := by decide
example : normalize_dimension_value "\x00a\x07".toList = "a".toList := by decide
example : normalize_dimension_value "a\x00\x07\x00b".toList = "a_b".toList := by decide
example : unescape_reserved "\\ \\,\\=\\\\".toList = " ,=\\".toList := by decide

example : dictGet (make_unique_dimensions [("a".toList, "2".toList)]
    (normalize_tags [("a".toList, "1".toList)])) "a".toList
    = some "1".toList := by decide

example : get_histogram_max ⟨[], 0, [0, 1, 0, 3, 2, 0], [1, 2, 3, 4, 5], 21.2, 6, none, none⟩ = 5 := by
  norm_num [get_histogram_max, scanBucketsMax, List.range_succ]

example : get_histogram_max ⟨[], 0, [4], [], 8.8, 4, none, none⟩ = 2.2 := by
  norm_num [get_histogram_max, scanBucketsMax]

example : get_histogram_max ⟨[], 0, [0, 0, 0, 0, 0, 2], [1, 2, 3, 4, 5], 20.2, 2, none, none⟩ = 10.1 := by
  norm_num [get_histogram_max, scanBucketsMax, List.range_succ]

example : get_histogram_max ⟨[], 0, [0, 2, 0], [0, 5], 2.3, 2, none, none⟩ = 5 := by
  norm_num [get_histogram_max, scanBucketsMax, List.range_succ]

example : get_histogram_min ⟨[], 0, [3, 0, 0, 0, 0, 0], [1, 2, 3, 4, 5], 0.75, 3, none, none⟩ = 0.25 := by
  norm_num [get_histogram_min, scanBucketsMin, List.range_succ]

example : get_histogram_min ⟨[], 0, [0, 0, 0, 0, 0, 3], [1, 2, 3, 4, 5], 15.6, 3, none, none⟩ = 5 := by
  norm_num [get_histogram_min, scanBucketsMin, List.range_succ]

example : get_histogram_min ⟨[], 0, [4], [], 8.8, 4, none, none⟩ = 2.2 := by
  norm_num [get_histogram_min, scanBucketsMin]

/-! ## Claim C4: temporality rules of the classifier -/

/-- Claim C4: a monotonic sum is accepted exactly when its temporality is
Delta and becomes a delta counter; a non-monotonic sum is accepted
exactly when its temporality is Cumulative and becomes a gauge; a
histogram is accepted exactly when its temporality is Delta; every
temporality mismatch yields none (dropped, no error). -/
theorem claim_C4_classifier_temporality :
    (∀ name p, create_metric name (.sumPoint true .delta p)
      = some ⟨name, p.attributes, .counterDelta p.value,
          p.time_unix_nano / 1000000⟩)
    ∧ (∀ name p, create_metric name (.sumPoint true .cumulative p) = none)
    ∧ (∀ name p, create_metric name (.sumPoint false .cumulative p)
      = some ⟨name, p.attributes, .gaugeValue p.value,
          p.time_unix_nano / 1000000⟩)
    ∧ (∀ name p, create_metric name (.sumPoint false .delta p) = none)
    ∧ (∀ name h, create_metric name (.histPoint .delta h)
      = some ⟨name, h.attributes,
          .summary (get_histogram_min h) (get_histogram_max h) h.hsum
            h.bucket_counts.sum,
          h.time_unix_nano / 1000000⟩)
    ∧ (∀ name h, create_metric name (.histPoint .cumulative h) = none) := by
  refine ⟨?_, ?_, ?_, ?_, ?_, ?_⟩ <;> intros <;> simp [create_metric]

/-! ## Claim C10: summary count is the sum of the bucket counts -/

/-- Claim C10: every accepted Delta histogram point is exported with
count equal to the sum of its bucket counts, not its stored count field;
at a concrete point whose stored count 2 disagrees with its single bucket
count 3, the exported count is 3 while the estimated max still divides
the sum 8 by the stored count 2, giving 4. -/
theorem claim_C10_summary_count_from_buckets :
    (∀ name h, summaryCount (create_metric name (.histPoint .delta h))
      = some h.bucket_counts.sum)
    ∧ summaryCount (create_metric []
        (.histPoint .delta ⟨[], 0, [3], [], 8, 2, none, none⟩)) = some 3
    ∧ get_histogram_max ⟨[], 0, [3], [], 8, 2, none, none⟩ = 4 := by
  refine ⟨fun name h => ?_, ?_, ?_⟩
  · simp [create_metric, summaryCount]
  · simp [create_metric, summaryCount]
  · norm_num [get_histogram_max]

/-! ## Claim C1: dimension merge priority.  The source merges only two
collections: the per-point labels first, then the pre-normalized tags
(static defaults and enrichment metadata combined), so a static default
overwrites a per-point attribute on collision, contrary to the claimed
priority order. -/

/-- Claim C1, behaviour of the code at the failing input: with the static
dimensions mapping a to 1 and a per-point attribute mapping a to 2, the
merged value for a is 1 (the static tag wins), not 2 as the claimed
priority demands. -/
theorem claim_C1_static_overwrites_point_attribute :
    dictGet (make_unique_dimensions [("a".toList, "2".toList)]
      (normalize_tags [("a".toList, "1".toList)])) "a".toList
      = some "1".toList := by decide

/-! ## Claim C3: metric keys are not truncated by the source -/

set_option maxRecDepth 100000 in
/-- Claim C3, behaviour of the code at the failing input: the
normalization of a 270-character key returns it unchanged with length
270, exceeding 250, and differs from the normalization of its first 250
characters; the declared limit __mk_max_length = 250 is never applied. -/
theorem claim_C3_no_truncation_applied :
    normalize_metric_key (List.replicate 270 'a') = List.replicate 270 'a'
    ∧ (List.replicate 270 'a').length = 270
    ∧ normalize_metric_key ((List.replicate 270 'a').take 250)
      = List.replicate 250 'a' := by
  refine ⟨by decide, by decide, by decide⟩

/-! ## Claim C2: chunking and first-failure delivery semantics -/

theorem chunksOfAux_mem_length_le (cs : ℕ) :
    ∀ (fuel : ℕ) (lines : List (List Char)),
      ∀ c ∈ chunksOfAux cs fuel lines, c.length ≤ cs := by
  intro fuel
  induction fuel with
  | zero => intro lines c hc; simp [chunksOfAux] at hc
  | succ n ih =>
    intro lines c hc
    cases lines with
    | nil => simp [chunksOfAux] at hc
    | cons x xs =>
      rw [chunksOfAux, List.mem_cons] at hc
      rcases hc with h | h
      · subst h; simp
      · exact ih _ c h

theorem chunksOf_mem_length_le (cs : ℕ) (lines : List (List Char)) :
    ∀ c ∈ chunksOf cs lines, c.length ≤ cs :=
  chunksOfAux_mem_length_le cs lines.length lines

theorem chunksOfAux_flatten (cs : ℕ) (hcs : 0 < cs) :
    ∀ (fuel : ℕ) (lines : List (List Char)), lines.length ≤ fuel →
      (chunksOfAux cs fuel lines).flatten = lines := by
  intro fuel
  induction fuel with
  | zero =>
    intro lines h
    rw [Nat.le_zero, List.length_eq_zero] at h
    subst h; rfl
  | succ n ih =>
    intro lines h
    cases lines with
    | nil => rfl
    | cons x xs =>
      rw [chunksOfAux, List.flatten_cons, ih ((x :: xs).drop cs) ?_,
        List.take_append_drop]
      simp only [List.length_drop, List.length_cons] at *
      omega

theorem chunksOf_flatten (cs : ℕ) (hcs : 0 < cs)
    (lines : List (List Char)) : (chunksOf cs lines).flatten = lines :=
  chunksOfAux_flatten cs hcs lines.length lines le_rfl

theorem send_chunks_all_ok (post : List Char → Bool) :
    ∀ chunks : List (List (List Char)),
      (∀ c ∈ chunks, post (joinLines c) = true) →
      send_chunks post chunks = (chunks.map joinLines, true) := by
  intro chunks
  induction chunks with
  | nil => intro _; rfl
  | cons c rest ih =>
    intro h
    rw [send_chunks]
    simp only [h c (List.mem_cons_self c rest), if_true,
      ih (fun d hd => h d (List.mem_cons_of_mem c hd))]
    simp

theorem send_chunks_first_fail (post : List Char → Bool) :
    ∀ (chunks : List (List (List Char))) (k : ℕ), k < chunks.length →
      post (joinLines (chunks.getD k [])) = false →
      (∀ j, j < k → post (joinLines (chunks.getD j [])) = true) →
      send_chunks post chunks = ((chunks.map joinLines).take (k + 1), false) := by
  intro chunks
  induction chunks with
  | nil => intro k hk; simp at hk
  | cons c rest ih =>
    intro k hk hfail hok
    cases k with
    | zero =>
      simp only [List.getD_cons_zero] at hfail
      rw [send_chunks]
      simp [hfail]
    | succ m =>
      have hc : post (joinLines c) = true := by
        have := hok 0 (Nat.succ_pos m)
        simpa using this
      rw [send_chunks]
      simp only [hc, if_true]
      have hrec := ih m (by simpa using hk)
        (by simpa using hfail)
        (fun j hj => by
          have := hok (j + 1) (Nat.succ_lt_succ hj)
          simpa using this)
      rw [hrec]
      simp

/-- Claim C2: for a positive chunk size the encoded lines are partitioned
into consecutive chunks of at most that many lines; one POST is made per
chunk in order as long as every POST succeeds, yielding SUCCESS; and if
the chunk at position k is the first whose POST fails, exactly the first
k+1 payloads are sent, later chunks are never attempted, and the export
call reports FAILURE. -/
theorem claim_C2_export_chunking_failure (post : List Char → Bool)
    (cs : ℕ) (lines : List (List Char)) (hcs : 0 < cs) :
    (∀ c ∈ chunksOf cs lines, c.length ≤ cs)
    ∧ (chunksOf cs lines).flatten = lines
    ∧ ((∀ c ∈ chunksOf cs lines, post (joinLines c) = true) →
        (send_lines post cs lines).1 = (chunksOf cs lines).map joinLines
          ∧ export_result post cs lines = .success)
    ∧ (∀ k, k < (chunksOf cs lines).length →
        post (joinLines ((chunksOf cs lines).getD k [])) = false →
        (∀ j, j < k → post (joinLines ((chunksOf cs lines).getD j [])) = true) →
        (send_lines post cs lines).1
            = ((chunksOf cs lines).map joinLines).take (k + 1)
          ∧ (send_lines post cs lines).1.length = k + 1
          ∧ export_result post cs lines = .failure) := by
  refine ⟨chunksOf_mem_length_le cs lines, chunksOf_flatten cs hcs lines,
    fun h => ?_, fun k hk hfail hok => ?_⟩
  · have hs := send_chunks_all_ok post (chunksOf cs lines) h
    constructor
    · rw [send_lines, hs]
    · rw [export_result, send_lines, hs]
      rfl
  · have hs := send_chunks_first_fail post (chunksOf cs lines) k hk hfail hok
    refine ⟨by rw [send_lines, hs], ?_,
      by rw [export_result, send_lines, hs]; rfl⟩
    rw [send_lines, hs]
    simp only [List.length_take, List.length_map]
    omega

/-- Claim C2 witness: four lines with chunk size two and a transport that
accepts only the first payload make exactly two HTTP calls and report
FAILURE. -/
theorem claim_C2_export_chunking_failure_witness :
    (send_lines (fun p => p = ['0', '\n', '1']) 2
        [['0'], ['1'], ['2'], ['3']]).1.length = 2
    ∧ export_result (fun p => p = ['0', '\n', '1']) 2
        [['0'], ['1'], ['2'], ['3']] = .failure := by
  have h := claim_C2_export_chunking_failure
    (fun p => p = ['0', '\n', '1']) 2 [['0'], ['1'], ['2'], ['3']]
    (by decide)
  have h2 := h.2.2.2 1 (by decide) (by decide)
    (fun j hj => by
      have hj0 : j = 0 := by omega
      subst hj0; decide)
  exact ⟨h2.2.1, h2.2.2⟩

/-! ## Claims C6 and C8: order of the dimension-value steps and
reversibility of the escaping -/

theorem unescape_reserved_cons_cons (c d : Char) (rest : List Char) :
    unescape_reserved (c :: d :: rest)
      = if c = '\\' && isReservedValueChar d then d :: unescape_reserved rest
        else c :: unescape_reserved (d :: rest) := rfl

theorem properlyEscaped_cons_cons (c d : Char) (rest : List Char) :
    properlyEscaped (c :: d :: rest)
      = if c = '\\' then isReservedValueChar d && properlyEscaped rest
        else !isReservedValueChar c && properlyEscaped (d :: rest) := rfl

theorem unescape_escape_reserved (s : List Char) :
    unescape_reserved (escape_reserved s) = s := by
  induction s with
  | nil => rfl
  | cons c rest ih =>
    by_cases hc : isReservedValueChar c = true
    · rw [escape_reserved, if_pos hc, unescape_reserved_cons_cons,
        if_pos (by simp [hc]), ih]
    · have hcb : ¬(c = '\\') := by
        intro hb; subst hb; simp [isReservedValueChar] at hc
      rw [escape_reserved, if_neg hc]
      cases rest with
      | nil => rfl
      | cons e t =>
        by_cases he : isReservedValueChar e = true
        · have hesc : escape_reserved (e :: t)
              = '\\' :: e :: escape_reserved t := by
            rw [escape_reserved, if_pos he]
          rw [hesc] at ih ⊢
          rw [unescape_reserved_cons_cons, if_neg (by simp [hcb]), ih]
        · have hesc : escape_reserved (e :: t) = e :: escape_reserved t := by
            rw [escape_reserved, if_neg he]
          rw [hesc] at ih ⊢
          rw [unescape_reserved_cons_cons, if_neg (by simp [hcb, he]), ih]

theorem properlyEscaped_escape_reserved (s : List Char) :
    properlyEscaped (escape_reserved s) = true := by
  induction s with
  | nil => rfl
  | cons c rest ih =>
    by_cases hc : isReservedValueChar c = true
    · rw [escape_reserved, if_pos hc, properlyEscaped_cons_cons,
        if_pos rfl]
      simp [hc, ih]
    · have hcb : ¬(c = '\\') := by
        intro hb; subst hb; simp [isReservedValueChar] at hc
      rw [escape_reserved, if_neg hc]
      cases rest with
      | nil => simp [properlyEscaped, hcb, hc]
      | cons e t =>
        by_cases he : isReservedValueChar e = true
        · have hesc : escape_reserved (e :: t)
              = '\\' :: e :: escape_reserved t := by
            rw [escape_reserved, if_pos he]
          rw [hesc] at ih ⊢
          rw [properlyEscaped_cons_cons, if_neg hcb]
          simp [hc, ih]
        · have hesc : escape_reserved (e :: t) = e :: escape_reserved t := by
            rw [escape_reserved, if_neg he]
          rw [hesc] at ih ⊢
          rw [properlyEscaped_cons_cons, if_neg hcb]
          simp [hc, ih]

/-- Claim C6: the value normalization is exactly truncation to 250
characters, then control-character stripping, then reserved-character
escaping; hence the output of any input is already determined by its
first 250 characters, and the escaped output never contains a dangling
escape backslash (every backslash opens a complete escape pair). -/
theorem claim_C6_value_normalization_order :
    (∀ v, normalize_dimension_value v
      = escape_reserved (remove_control_characters (v.take 250)))
    ∧ (∀ v w, v.take 250 = w.take 250 →
        normalize_dimension_value v = normalize_dimension_value w)
    ∧ (∀ v, properlyEscaped (normalize_dimension_value v) = true) := by
  refine ⟨fun v => rfl, fun v w h => ?_, fun v => ?_⟩
  · rw [normalize_dimension_value, normalize_dimension_value, h]
  · exact properlyEscaped_escape_reserved _

set_option maxRecDepth 100000 in
/-- Claim C6 witness: two 251-character inputs agreeing on their first
250 characters normalize identically. -/
theorem claim_C6_value_normalization_order_witness :
    normalize_dimension_value (List.replicate 250 'a' ++ ['b'])
      = normalize_dimension_value (List.replicate 250 'a' ++ ['c']) :=
  claim_C6_value_normalization_order.2.1 _ _ (by decide)

set_option maxRecDepth 100000 in
/-- Claim C8 counterexample: for the 270-character value of letters a
(which contains no control character at all, so removing control
characters leaves it unchanged), unescaping the normalized value yields
only the first 250 characters, not the original value; the claimed
recovery fails for every value longer than 250 characters. -/
theorem claim_C8_truncation_defeats_recovery :
    unescape_reserved (normalize_dimension_value (List.replicate 270 'a'))
      ≠ (List.replicate 270 'a').filter (fun c => !isControlChar c) := by
  decide

/-- Claim C8 as amended: for every value of at most 250 characters,
unescaping the normalized value recovers the value with its control
characters stripped (leading and trailing control runs deleted, internal
runs collapsed to one underscore). -/
theorem claim_C8_escape_reversible (v : List Char) (h : v.length ≤ 250) :
    unescape_reserved (normalize_dimension_value v)
      = remove_control_characters v := by
  rw [normalize_dimension_value, List.take_of_length_le h,
    unescape_escape_reserved]

/-- Claim C8 witness: the amended statement at a three-character value
containing a reserved character. -/
theorem claim_C8_escape_reversible_witness :
    unescape_reserved (normalize_dimension_value ['a', '=', 'b'])
      = remove_control_characters ['a', '=', 'b'] :=
  claim_C8_escape_reversible ['a', '=', 'b'] (by decide)

/-! ## Claim C9: a point whose key normalizes to empty yields nothing -/

theorem write_record_empty_key (is_delta : Bool) (pfx : List Char)
    (tags : List (List Char × List Char)) (buf : List Char)
    (r : MetricRecord) (h : get_metric_key pfx r.instrument_name = []) :
    write_record is_delta pfx tags buf r = buf := by
  unfold write_record
  cases serialize_value_clause is_delta r.aggregator with
  | none => rfl
  | some clause => simp [h]

/-- Claim C9: a record whose metric key normalizes to the empty string
contributes nothing to the serialized output: the batch with the record
serializes exactly like the batch without it, nothing partial is
appended, no error is possible (the function is total), and the
surrounding records are unaffected. -/
theorem claim_C9_empty_key_drops_point (is_delta : Bool) (pfx : List Char)
    (tags : List (List Char × List Char)) (l₁ l₂ : List MetricRecord)
    (r : MetricRecord) (h : get_metric_key pfx r.instrument_name = []) :
    serialize_records is_delta pfx tags (l₁ ++ r :: l₂)
      = serialize_records is_delta pfx tags (l₁ ++ l₂) := by
  rw [serialize_records, serialize_records, List.foldl_append,
    List.foldl_append, List.foldl_cons,
    write_record_empty_key is_delta pfx tags _ r h]

/-! ## Claim C7: idempotence of the metric key normalization -/

theorem mkStart_valid {c : Char} (h : isMkSectionStartChar c = true) :
    isMkValidChar c = true := by
  revert h
  simp [isMkSectionStartChar, isMkValidChar]
  tauto

theorem mkFirstStart_start {c : Char} (h : isMkFirstStartChar c = true) :
    isMkSectionStartChar c = true := by
  revert h
  simp [isMkFirstStartChar, isMkSectionStartChar]
  tauto

theorem head?_dropWhile_not (p : Char → Bool) :
    ∀ (l : List Char) (a : Char), (l.dropWhile p).head? = some a →
      p a = false := by
  intro l
  induction l with
  | nil => intro a h; simp at h
  | cons c t ih =>
    intro a h
    by_cases hc : p c
    · rw [List.dropWhile_cons_of_pos hc] at h
      exact ih a h
    · rw [List.dropWhile_cons_of_neg hc] at h
      simp at h
      subst h
      simpa using hc

theorem dropWhile_eq_self_of_head (p : Char → Bool) (l : List Char)
    (h : ∀ a, l.head? = some a → p a = false) : l.dropWhile p = l := by
  cases l with
  | nil => rfl
  | cons c t =>
    exact List.dropWhile_cons_of_neg (by simp [h c rfl])

theorem dropTrailing_decomp (p : Char → Bool) (l : List Char) :
    l = dropTrailing p l ++ (l.reverse.takeWhile p).reverse := by
  rw [dropTrailing, ← List.reverse_append, List.takeWhile_append_dropWhile,
    List.reverse_reverse]

theorem dropTrailing_eq_self (p : Char → Bool) (l : List Char)
    (h : ∀ c ∈ l, p c = false) : dropTrailing p l = l := by
  rw [dropTrailing, dropWhile_eq_self_of_head p l.reverse ?_,
    List.reverse_reverse]
  intro a ha
  refine h a (List.mem_reverse.mp ?_)
  cases hl : l.reverse with
  | nil => rw [hl] at ha; simp at ha
  | cons b t =>
    rw [hl] at ha
    simp only [List.head?_cons, Option.some_inj] at ha
    rw [← ha]
    exact List.mem_cons_self b t

theorem condenseRuns_mem (valid : Char → Bool) (hu : valid '_' = true) :
    ∀ (b : Bool) (l : List Char) (c : Char),
      c ∈ condenseRuns valid b l → valid c = true := by
  intro b l
  induction l generalizing b with
  | nil => intro c hc; simp [condenseRuns] at hc
  | cons a t ih =>
    intro c hc
    rw [condenseRuns] at hc
    by_cases ha : valid a = true
    · rw [if_pos ha] at hc
      rcases List.mem_cons.mp hc with h | h
      · subst h; exact ha
      · exact ih false c h
    · rw [if_neg ha] at hc
      cases b with
      | true => exact ih true c (by simpa using hc)
      | false =>
        rcases List.mem_cons.mp (by simpa using hc) with h | h
        · subst h; exact hu
        · exact ih true c h

theorem condenseRuns_eq_self (valid : Char → Bool) :
    ∀ (b : Bool) (l : List Char), (∀ c ∈ l, valid c = true) →
      condenseRuns valid b l = l := by
  intro b l
  induction l generalizing b with
  | nil => intro _; rfl
  | cons a t ih =>
    intro h
    rw [condenseRuns, if_pos (h a (List.mem_cons_self a t)),
      ih false (fun c hc => h c (List.mem_cons_of_mem a hc))]

theorem normalize_mk_section_mem (s : List Char) :
    ∀ c ∈ normalize_metric_key_section s, isMkValidChar c = true :=
  fun c hc => condenseRuns_mem isMkValidChar (by decide) false _ c hc

theorem normalize_mk_section_head_eq (s : List Char) :
    ∀ a, (normalize_metric_key_section s).head? = some a →
      (s.dropWhile (fun c => !isMkSectionStartChar c)).head? = some a := by
  intro a ha
  unfold normalize_metric_key_section at ha
  cases hw : dropTrailing (fun c => !isMkValidChar c)
      (s.dropWhile (fun c => !isMkSectionStartChar c)) with
  | nil => rw [hw] at ha; simp [condenseRuns] at ha
  | cons b w =>
    have hub : (s.dropWhile (fun c => !isMkSectionStartChar c)).head?
        = some b := by
      rw [dropTrailing_decomp (fun c => !isMkValidChar c)
        (s.dropWhile (fun c => !isMkSectionStartChar c)), hw]
      rfl
    have hsb : isMkSectionStartChar b = true := by
      have := head?_dropWhile_not (fun c => !isMkSectionStartChar c) s b hub
      simpa using this
    rw [hw, condenseRuns, if_pos (mkStart_valid hsb)] at ha
    simp only [List.head?_cons, Option.some_inj] at ha
    subst ha
    exact hub

theorem normalize_mk_section_head (s : List Char) :
    ∀ a, (normalize_metric_key_section s).head? = some a →
      isMkSectionStartChar a = true := by
  intro a ha
  have := head?_dropWhile_not (fun c => !isMkSectionStartChar c) s a
    (normalize_mk_section_head_eq s a ha)
  simpa using this

theorem normalize_mk_first_mem (s : List Char) :
    ∀ c ∈ normalize_metric_key_first_section s, isMkValidChar c = true :=
  fun c hc => normalize_mk_section_mem _ c hc

theorem normalize_mk_first_head (s : List Char) :
    ∀ a, (normalize_metric_key_first_section s).head? = some a →
      isMkFirstStartChar a = true := by
  intro a ha
  unfold normalize_metric_key_first_section at ha
  have h := normalize_mk_section_head_eq
    (s.dropWhile (fun c => !isMkFirstStartChar c)) a ha
  cases hu : s.dropWhile (fun c => !isMkFirstStartChar c) with
  | nil => rw [hu] at h; simp at h
  | cons b t =>
    have hfb : isMkFirstStartChar b = true := by
      have := head?_dropWhile_not (fun c => !isMkFirstStartChar c) s b
        (by rw [hu]; rfl)
      simpa using this
    rw [hu, List.dropWhile_cons_of_neg (by simp [mkFirstStart_start hfb])]
      at h
    simp only [List.head?_cons, Option.some_inj] at h
    subst h
    exact hfb

theorem normalize_mk_section_id (s : List Char)
    (hall : ∀ c ∈ s, isMkValidChar c = true)
    (hhead : ∀ a, s.head? = some a → isMkSectionStartChar a = true) :
    normalize_metric_key_section s = s := by
  unfold normalize_metric_key_section
  rw [dropWhile_eq_self_of_head _ _ (fun a ha => by simp [hhead a ha]),
    dropTrailing_eq_self _ _ (fun c hc => by simp [hall c hc]),
    condenseRuns_eq_self _ false s hall]

theorem normalize_mk_first_id (s : List Char)
    (hall : ∀ c ∈ s, isMkValidChar c = true)
    (hhead : ∀ a, s.head? = some a → isMkFirstStartChar a = true) :
    normalize_metric_key_first_section s = s := by
  unfold normalize_metric_key_first_section
  rw [dropWhile_eq_self_of_head _ _ (fun a ha => by simp [hhead a ha])]
  exact normalize_mk_section_id s hall
    (fun a ha => mkFirstStart_start (hhead a ha))

/-- Claim C7: normalizing a metric key twice gives the same result as
normalizing it once, including the empty result. -/
theorem claim_C7_normalize_metric_key_idempotent (k : List Char) :
    normalize_metric_key (normalize_metric_key k)
      = normalize_metric_key k := by
  cases hk : k.splitOn '.' with
  | nil => exact absurd hk (List.splitOnP_ne_nil _ k)
  | cons first rest =>
    have hnk : normalize_metric_key k
        = if normalize_metric_key_first_section first = [] then []
          else List.intercalate ['.']
            (normalize_metric_key_first_section first ::
              (rest.map normalize_metric_key_section).filter
                (fun s => s ≠ [])) := by
      rw [normalize_metric_key, hk]
    by_cases hfe : normalize_metric_key_first_section first = []
    · rw [hnk, if_pos hfe]
      decide
    · rw [hnk, if_neg hfe]
      have hnodot : ∀ l ∈ normalize_metric_key_first_section first ::
          (rest.map normalize_metric_key_section).filter
            (fun s => s ≠ []), '.' ∉ l := by
        intro l hl hdot
        rcases List.mem_cons.mp hl with h | h
        · subst h
          have := normalize_mk_first_mem first '.' hdot
          simp [isMkValidChar] at this
        · obtain ⟨r₀, _, rfl⟩ := List.mem_map.mp (List.mem_filter.mp h).1
          have := normalize_mk_section_mem r₀ '.' hdot
          simp [isMkValidChar] at this
      have hsplit := List.splitOn_intercalate
        (normalize_metric_key_first_section first ::
          (rest.map normalize_metric_key_section).filter (fun s => s ≠ []))
        '.' hnodot (by simp)
      have hnk2 : normalize_metric_key (List.intercalate ['.']
            (normalize_metric_key_first_section first ::
              (rest.map normalize_metric_key_section).filter
                (fun s => s ≠ [])))
          = if normalize_metric_key_first_section
              (normalize_metric_key_first_section first) = [] then []
            else List.intercalate ['.']
              (normalize_metric_key_first_section
                  (normalize_metric_key_first_section first) ::
                (((rest.map normalize_metric_key_section).filter
                    (fun s => s ≠ [])).map
                  normalize_metric_key_section).filter
                  (fun s => s ≠ [])) := by
        rw [normalize_metric_key, hsplit]
      have hf_id : normalize_metric_key_first_section
          (normalize_metric_key_first_section first)
            = normalize_metric_key_first_section first :=
        normalize_mk_first_id _ (normalize_mk_first_mem first)
          (normalize_mk_first_head first)
      rw [hnk2, hf_id, if_neg hfe]
      congr 1
      congr 1
      have hmap : ((rest.map normalize_metric_key_section).filter
            (fun s => s ≠ [])).map normalize_metric_key_section
          = ((rest.map normalize_metric_key_section).filter
            (fun s => s ≠ [])).map id := by
        apply List.map_congr_left
        intro r hr
        obtain ⟨r₀, _, rfl⟩ := List.mem_map.mp (List.mem_filter.mp hr).1
        exact normalize_mk_section_id _ (normalize_mk_section_mem r₀)
          (normalize_mk_section_head r₀)
      rw [hmap, List.map_id]
      exact List.filter_eq_self.mpr
        (fun r hr => (List.mem_filter.mp hr).2)

/-! ## Claim C5: the histogram estimation algorithm matches the spec -/

theorem scanBucketsMax_eq_find (h : HistogramDataPoint) (is : List ℕ) :
    scanBucketsMax h is
      = match is.find? (fun i => decide (0 < h.bucket_counts.getD i 0)) with
        | none => h.hsum
        | some i =>
          if i = h.bucket_counts.length - 1 then
            max (h.explicit_bounds.getD (i - 1) 0) (h.hsum / (h.count : ℚ))
          else h.explicit_bounds.getD i 0 := by
  induction is with
  | nil => rfl
  | cons i rest ih =>
    by_cases hc : 0 < h.bucket_counts.getD i 0
    · rw [scanBucketsMax, if_pos hc,
        List.find?_cons_of_pos rest (by simpa using hc)]
    · rw [scanBucketsMax, if_neg hc,
        List.find?_cons_of_neg rest (by simpa using hc), ih]

theorem scanBucketsMin_eq_find (h : HistogramDataPoint) (is : List ℕ) :
    scanBucketsMin h is
      = match is.find? (fun i => decide (0 < h.bucket_counts.getD i 0)) with
        | none => h.hsum
        | some i =>
          if i = 0 then
            min (h.explicit_bounds.getD 0 0) (h.hsum / (h.count : ℚ))
          else h.explicit_bounds.getD (i - 1) 0 := by
  induction is with
  | nil => rfl
  | cons i rest ih =>
    by_cases hc : 0 < h.bucket_counts.getD i 0
    · rw [scanBucketsMin, if_pos hc,
        List.find?_cons_of_pos rest (by simpa using hc)]
    · rw [scanBucketsMin, if_neg hc,
        List.find?_cons_of_neg rest (by simpa using hc), ih]

theorem headD_eq_getD (l : List ℚ) : l.head?.getD 0 = l.getD 0 0 := by
  cases l <;> rfl

theorem getLastD_eq_getD : ∀ l : List ℚ, l ≠ [] →
    l.getLast?.getD 0 = l.getD (l.length - 1) 0 := by
  intro l
  induction l with
  | nil => intro hh; exact absurd rfl hh
  | cons x t ih =>
    intro _
    cases t with
    | nil => rfl
    | cons y u =>
      rw [List.getLast?_cons_cons, ih (by simp)]
      simp [List.getD]

theorem get_histogram_max_eq_spec (h : HistogramDataPoint)
    (hm : h.hmax = none)
    (hwf : h.explicit_bounds.length + 1 = h.bucket_counts.length) :
    get_histogram_max h = specEstimateMax h := by
  rw [get_histogram_max, hm]
  by_cases h1 : h.bucket_counts.length = 1
  · rw [specEstimateMax, if_pos h1, if_pos h1]
    simp [Nat.pos_iff_ne_zero]
  · rw [specEstimateMax, if_neg h1, if_neg h1, scanBucketsMax_eq_find]
    cases hf : (List.range h.bucket_counts.length).reverse.find?
        (fun i => decide (0 < h.bucket_counts.getD i 0)) with
    | none => rfl
    | some i =>
      simp only
      by_cases hi : i = h.bucket_counts.length - 1
      · rw [if_pos hi, if_pos hi]
        have hmem := List.mem_of_find?_eq_some hf
        have hlt : i < h.bucket_counts.length := by
          rw [List.mem_reverse, List.mem_range] at hmem
          exact hmem
        have hbne : h.explicit_bounds ≠ [] := by
          intro hb
          rw [hb] at hwf
          simp at hwf
          omega
        rw [getLastD_eq_getD _ hbne,
          show i - 1 = h.explicit_bounds.length - 1 from by omega]
      · rw [if_neg hi, if_neg hi]

theorem get_histogram_min_eq_spec (h : HistogramDataPoint)
    (hm : h.hmin = none)
    (_hwf : h.explicit_bounds.length + 1 = h.bucket_counts.length) :
    get_histogram_min h = specEstimateMin h := by
  rw [get_histogram_min, hm]
  by_cases h1 : h.bucket_counts.length = 1
  · rw [specEstimateMin, if_pos h1, if_pos h1]
    simp [Nat.pos_iff_ne_zero]
  · rw [specEstimateMin, if_neg h1, if_neg h1, scanBucketsMin_eq_find]
    cases hf : (List.range h.bucket_counts.length).find?
        (fun i => decide (0 < h.bucket_counts.getD i 0)) with
    | none => rfl
    | some i =>
      simp only
      by_cases hi : i = 0
      · rw [if_pos hi, if_pos hi, headD_eq_getD]
      · rw [if_neg hi, if_neg hi]

/-- Claim C5: whenever the histogram's own max (respectively min) is
absent or non-finite and the explicit bounds are one shorter than the
bucket counts, the source estimator agrees with the spec's algorithm
(single bucket: mean if its count is non-zero, else the raw sum; several
buckets: first non-zero bucket scanning from the last yields the max of
the last explicit bound and the mean if it is the last bucket, else its
upper explicit bound; all zero: the raw sum; min mirrored); the
single-bucket histogram with count 4, no bounds and sum 8.8 gets min and
max estimates of 2.2. -/
theorem claim_C5_histogram_estimation :
    (∀ h : HistogramDataPoint, h.hmax = none →
      h.explicit_bounds.length + 1 = h.bucket_counts.length →
      get_histogram_max h = specEstimateMax h)
    ∧ (∀ h : HistogramDataPoint, h.hmin = none →
      h.explicit_bounds.length + 1 = h.bucket_counts.length →
      get_histogram_min h = specEstimateMin h)
    ∧ get_histogram_max ⟨[], 0, [4], [], 8.8, 4, none, none⟩ = 2.2
    ∧ get_histogram_min ⟨[], 0, [4], [], 8.8, 4, none, none⟩ = 2.2 := by
  refine ⟨get_histogram_max_eq_spec, get_histogram_min_eq_spec, ?_, ?_⟩
  · norm_num [get_histogram_max]
  · norm_num [get_histogram_min]

/-- Claim C5 witness: the estimator/spec agreement at a concrete
three-bucket histogram whose middle bucket holds the single count. -/
theorem claim_C5_histogram_estimation_witness :
    get_histogram_max ⟨[], 0, [0, 1, 0], [1, 2], 3, 1, none, none⟩
      = specEstimateMax ⟨[], 0, [0, 1, 0], [1, 2], 3, 1, none, none⟩
    ∧ get_histogram_min ⟨[], 0, [0, 1, 0], [1, 2], 3, 1, none, none⟩
      = specEstimateMin ⟨[], 0, [0, 1, 0], [1, 2], 3, 1, none, none⟩ :=
  ⟨claim_C5_histogram_estimation.1 _ rfl (by decide),
    claim_C5_histogram_estimation.2.1 _ rfl (by decide)⟩

/-- Claim C9 witness: a record named with a bare dot serializes to
nothing, alone in a batch. -/
theorem claim_C9_empty_key_drops_point_witness :
    serialize_records true [] [] ([] ++ ⟨['.'], [], .sumAgg 10 0⟩ :: [])
      = serialize_records true [] [] ([] ++ []) :=
  claim_C9_empty_key_drops_point true [] [] [] []
    ⟨['.'], [], .sumAgg 10 0⟩ (by decide)

end DynatraceMetrics
